import Mathlib

set_option maxHeartbeats 1000000

/-- Result of a Rust fmt write operation: success or a formatting error. -/
inductive FmtResult where
  | ok : FmtResult
  | err : FmtResult
deriving DecidableEq

/-- The default indentation level (constant DEFAULT_INDENT in formatter.rs). -/
def DEFAULT_INDENT : Nat := 4

/-- Formatter state: destination buffer (dst), current indentation level in
spaces, and the current scope stack. Mirrors struct Formatter in formatter.rs;
the borrowed destination buffer is modelled as an owned list of characters. -/
structure Formatter where
  dst : List Char
  spaces : Nat
  scope : List (List Char)
deriving DecidableEq

/-- Formatter::new - fresh formatter over a given destination buffer. -/
def Formatter.new (dst : List Char) : Formatter :=
  ⟨dst, 0, []⟩

/-- Formatter::get_indent. -/
def get_indent (fm : Formatter) : Nat :=
  fm.spaces

/-- Formatter::is_start_of_line - the buffer is empty or ends with a newline. -/
def is_start_of_line (fm : Formatter) : Bool :=
  fm.dst.isEmpty || fm.dst.getLast? == some '\n'

/-- Formatter::push_spaces - append `spaces` space characters to the buffer. -/
def push_spaces (fm : Formatter) : Formatter :=
  { fm with dst := fm.dst ++ List.replicate fm.spaces ' ' }

/-- str::split_inclusive with a newline pattern: the pieces of the string,
each piece keeping its terminating newline; the last piece may lack one.
An empty string yields no pieces. -/
def splitInclusiveNl : List Char → List (List Char)
  | [] => []
  | c :: cs =>
    if c = '\n' then ['\n'] :: splitInclusiveNl cs
    else
      match splitInclusiveNl cs with
      | [] => [[c]]
      | l :: ls => (c :: l) :: ls

/-- The per-piece map of str::lines: strip one trailing newline, and if the
newline was stripped also strip one trailing carriage return. -/
def stripLineEnd (l : List Char) : List Char :=
  match l.reverse with
  | [] => l
  | c :: r =>
    if c = '\n' then
      match r with
      | [] => []
      | c2 :: r2 => if c2 = '\r' then r2.reverse else r.reverse
    else l

/-- str::lines as used by Formatter::write_str: split inclusively at newlines,
then strip the line terminator (\n, or \r\n) from every piece. -/
def rustLines (s : List Char) : List (List Char) :=
  (splitInclusiveNl s).map stripLineEnd

/-- The loop body of Formatter::write_str over the list of lines, carrying the
`first` and `should_indent` flags of the source. -/
def writeLines (fm : Formatter) (first should_indent : Bool) :
    List (List Char) → Formatter
  | [] => fm
  | line :: rest =>
    let fm1 := if first then fm else { fm with dst := fm.dst ++ ['\n'] }
    let do_indent := should_indent && !line.isEmpty && !(line.head? == some '\n')
    let fm2 := if do_indent then push_spaces fm1 else fm1
    let fm3 := { fm2 with dst := fm2.dst ++ line }
    writeLines fm3 false true rest

/-- Formatter::write_str (the fmt::Write impl): iterate over the lines of s,
re-inserting separators and indenting, then restore a trailing newline when
the input's last byte is a newline. Always returns Ok. -/
def write_str (fm : Formatter) (s : List Char) : Formatter × FmtResult :=
  let fm1 := writeLines fm true (is_start_of_line fm) (rustLines s)
  let fm2 :=
    if s.getLast? == some '\n' then { fm1 with dst := fm1.dst ++ ['\n'] } else fm1
  (fm2, FmtResult.ok)

/-- Formatter::indent - run the inner operation with spaces increased by
DEFAULT_INDENT, then decrease by the same amount, passing the result through. -/
def indent {R : Type} (fm : Formatter) (g : Formatter → Formatter × R) :
    Formatter × R :=
  let fm1 := { fm with spaces := fm.spaces + DEFAULT_INDENT }
  let p := g fm1
  ({ p.1 with spaces := p.1.spaces - DEFAULT_INDENT }, p.2)

/-- Formatter::scope - push a name segment, run the inner operation, pop the
last segment, passing the result through. -/
def scope {R : Type} (fm : Formatter) (name : List Char)
    (g : Formatter → Formatter × R) : Formatter × R :=
  let fm1 := { fm with scope := fm.scope ++ [name] }
  let p := g fm1
  ({ p.1 with scope := p.1.scope.dropLast }, p.2)

/-- Formatter::write_scoped_name - write a leading space through the indenting
writer, push every scope segment followed by a double-colon directly into the
buffer, then write the identifier through the indenting writer. -/
def write_scoped_name (fm : Formatter) (name : List Char) :
    Formatter × FmtResult :=
  match write_str fm [' '] with
  | (fm1, FmtResult.err) => (fm1, FmtResult.err)
  | (fm1, FmtResult.ok) =>
    let fm2 :=
      { fm1 with dst := fm1.dst ++ (fm1.scope.map (fun s => s ++ [':', ':'])).flatten }
    write_str fm2 name

/-- Formatter::block - optional separating space, opening brace plus newline,
inner operation under indent, closing brace; errors short-circuit. -/
def block (fm : Formatter) (g : Formatter → Formatter × FmtResult) :
    Formatter × FmtResult :=
  match (if is_start_of_line fm then (fm, FmtResult.ok) else write_str fm [' ']) with
  | (fm1, FmtResult.err) => (fm1, FmtResult.err)
  | (fm1, FmtResult.ok) =>
    match write_str fm1 ['\x7b', '\n'] with
    | (fm2, FmtResult.err) => (fm2, FmtResult.err)
    | (fm2, FmtResult.ok) =>
      match indent fm2 g with
      | (fm3, FmtResult.err) => (fm3, FmtResult.err)
      | (fm3, FmtResult.ok) => write_str fm3 ['\x7d']

/-- The indentation prefix: n space characters. -/
def indentStr (n : Nat) : List Char :=
  List.replicate n ' '

/-- Declarative rendering of one line: the indentation prefix exactly when the
should-indent flag holds, the line is nonempty and its first character is not
a newline; then the line verbatim. -/
def renderLine (ind : Nat) (si : Bool) (line : List Char) : List Char :=
  (if si && !line.isEmpty && !(line.head? == some '\n') then indentStr ind else [])
    ++ line

/-- Declarative rendering of a list of lines, re-separated by newlines: every
line after the first is preceded by a newline, the first line's indent flag is
the given one, all later lines are indented unconditionally (when nonempty). -/
def renderLinesF (ind : Nat) : Bool → Bool → List (List Char) → List Char
  | _, _, [] => []
  | first, si, l :: ls =>
    (if first then [] else ['\n']) ++ renderLine ind si l
      ++ renderLinesF ind false true ls

/-- The restored trailing newline: one newline exactly when the input's last
character is a newline. -/
def trailingNl (s : List Char) : List Char :=
  if s.getLast? == some '\n' then ['\n'] else []

/-- The full text appended by one write of s at indentation ind with
start-of-line flag sol: the rendered lines followed by the restored trailing
newline. -/
def specAppend (ind : Nat) (sol : Bool) (s : List Char) : List Char :=
  renderLinesF ind true sol (rustLines s) ++ trailingNl s

/-- Character-level description of the same appended text: a newline resets
the start-of-line flag, a carriage return immediately followed by a newline is
dropped with the newline kept, and any other character is emitted after the
indentation prefix when the flag holds. -/
def rendered (ind : Nat) : Bool → List Char → List Char
  | _, [] => []
  | sol, [c] =>
    if c = '\n' then ['\n']
    else (if sol then indentStr ind else []) ++ [c]
  | sol, c :: c2 :: cs =>
    if c = '\n' then '\n' :: rendered ind true (c2 :: cs)
    else if c = '\r' ∧ c2 = '\n' then '\n' :: rendered ind true cs
    else (if sol then indentStr ind else []) ++ c :: rendered ind false (c2 :: cs)

/-- The start-of-line flag after writing s on a buffer whose flag was sol. -/
def solAfter (sol : Bool) (s : List Char) : Bool :=
  match s.getLast? with
  | none => sol
  | some c => c == '\n'

/-- Variant loop of write_str whose indent condition omits the
first-character-newline conjunct (claim C8's simplified guard). -/
def writeLinesNoGuard (fm : Formatter) (first should_indent : Bool) :
    List (List Char) → Formatter
  | [] => fm
  | line :: rest =>
    let fm1 := if first then fm else { fm with dst := fm.dst ++ ['\n'] }
    let do_indent := should_indent && !line.isEmpty
    let fm2 := if do_indent then push_spaces fm1 else fm1
    let fm3 := { fm2 with dst := fm2.dst ++ line }
    writeLinesNoGuard fm3 false true rest

/-- Variant of write_str built on the simplified indent condition. -/
def write_str_noguard (fm : Formatter) (s : List Char) : Formatter × FmtResult :=
  let fm1 := writeLinesNoGuard fm true (is_start_of_line fm) (rustLines s)
  let fm2 :=
    if s.getLast? == some '\n' then { fm1 with dst := fm1.dst ++ ['\n'] } else fm1
  (fm2, FmtResult.ok)

/-- Splitting purely at newline characters, the way claim C1's words describe
line-splitting: the segments between newline separators, with no
carriage-return handling. Always yields at least one segment. -/
def naiveSplitNl : List Char → List (List Char)
  | [] => [[]]
  | c :: cs =>
    if c = '\n' then [] :: naiveSplitNl cs
    else
      match naiveSplitNl cs with
      | [] => [[c]]
      | l :: ls => (c :: l) :: ls

/-- The line sequence claim C1 literally describes: split at newline
characters only, dropping the final empty segment left by a trailing
newline (so that trailing-newline information lives in the separate
trailing-newline rule). -/
def naiveLines (s : List Char) : List (List Char) :=
  let ps := naiveSplitNl s
  if ps.getLast? == some ([] : List Char) then ps.dropLast else ps

/-- The appended text claim C1 literally predicts: the naively split lines,
rendered with the indentation rule and re-separated by newlines, plus the
restored trailing newline. -/
def naiveAppend (ind : Nat) (sol : Bool) (s : List Char) : List Char :=
  renderLinesF ind true sol (naiveLines s) ++ trailingNl s

theorem writeLines_eq (ls : List (List Char)) :
    ∀ (fm : Formatter) (first si : Bool),
      writeLines fm first si ls =
        { fm with dst := fm.dst ++ renderLinesF fm.spaces first si ls } := by
  induction ls with
  | nil => intro fm first si; simp [writeLines, renderLinesF]
  | cons l ls ih =>
    intro fm first si
    simp only [writeLines, renderLinesF]
    rw [ih]
    cases first <;>
      cases h : (si && !l.isEmpty && !(l.head? == some '\n')) <;>
        simp [push_spaces, renderLine, indentStr, h, List.append_assoc]

theorem write_str_eq_spec (fm : Formatter) (s : List Char) :
    write_str fm s =
      ({ fm with dst := fm.dst ++ specAppend fm.spaces (is_start_of_line fm) s },
        FmtResult.ok) := by
  simp only [write_str, specAppend, writeLines_eq, trailingNl]
  cases h : (s.getLast? == some '\n') <;> simp [h, List.append_assoc]

theorem splitInclusiveNl_ne_nil {cs : List Char} (h : cs ≠ []) :
    splitInclusiveNl cs ≠ [] := by
  cases cs with
  | nil => exact absurd rfl h
  | cons c r =>
    by_cases hc : c = '\n'
    · simp [splitInclusiveNl, hc]
    · cases h2 : splitInclusiveNl r <;> simp [splitInclusiveNl, hc, h2]

theorem splitInclusiveNl_pieces_ne_nil :
    ∀ (cs : List Char) (p : List Char), p ∈ splitInclusiveNl cs → p ≠ [] := by
  intro cs
  induction cs with
  | nil => intro p hp; simp [splitInclusiveNl] at hp
  | cons c r ih =>
    intro p hp
    by_cases hc : c = '\n'
    · simp [splitInclusiveNl, hc] at hp
      rcases hp with hp | hp
      · simp [hp]
      · exact ih p hp
    · simp only [splitInclusiveNl, if_neg hc] at hp
      cases h2 : splitInclusiveNl r with
      | nil => rw [h2] at hp; simp at hp; simp [hp]
      | cons l ls =>
        rw [h2] at hp
        simp at hp
        rcases hp with hp | hp
        · simp [hp]
        · exact ih p (by rw [h2]; exact List.mem_cons_of_mem _ hp)

theorem splitInclusiveNl_first_head {cs p : List Char} {ps : List (List Char)}
    (h : splitInclusiveNl cs = p :: ps) : cs.head? = p.head? := by
  cases cs with
  | nil => simp [splitInclusiveNl] at h
  | cons c r =>
    by_cases hc : c = '\n'
    · simp [splitInclusiveNl, hc] at h
      simp [hc, h.1.symm]
    · simp only [splitInclusiveNl, if_neg hc] at h
      cases h2 : splitInclusiveNl r with
      | nil => rw [h2] at h; simp at h; simp [h.1.symm]
      | cons l ls => rw [h2] at h; simp at h; simp [h.1.symm]

theorem splitInclusiveNl_first_nl {cs p : List Char} {ps : List (List Char)}
    (h : splitInclusiveNl cs = p :: ps) (hh : cs.head? = some '\n') :
    p = ['\n'] := by
  cases cs with
  | nil => simp at hh
  | cons c r =>
    simp at hh
    rw [hh] at h
    simp [splitInclusiveNl] at h
    exact h.1.symm

theorem stripLineEnd_cons (c : Char) (p : List Char) (hp : p ≠ [])
    (hne : ¬(c = '\r' ∧ p = ['\n'])) :
    stripLineEnd (c :: p) = c :: stripLineEnd p := by
  rcases List.eq_nil_or_concat p with h | ⟨r, d, rfl⟩
  · exact absurd h hp
  · by_cases hd : d = '\n'
    · subst hd
      cases hr : r.reverse with
      | nil =>
        have hr0 : r = [] := by simpa using congrArg List.reverse hr
        subst hr0
        have hc : ¬ c = '\r' := fun hc => hne ⟨hc, by simp⟩
        simp [stripLineEnd, hc]
      | cons e t =>
        by_cases he : e = '\r'
        · subst he
          simp [stripLineEnd, List.reverse_append, hr]
        · simp [stripLineEnd, List.reverse_append, hr, he]
    · simp [stripLineEnd, List.reverse_append, hd]

theorem rustLines_ne_nil {cs : List Char} (h : cs ≠ []) : rustLines cs ≠ [] := by
  intro hx
  exact splitInclusiveNl_ne_nil h (by simpa [rustLines] using hx)

theorem rustLines_cons_nl (cs : List Char) :
    rustLines ('\n' :: cs) = [] :: rustLines cs := by
  have h1 : splitInclusiveNl ('\n' :: cs) = ['\n'] :: splitInclusiveNl cs := by
    simp [splitInclusiveNl]
  have h2 : stripLineEnd ['\n'] = [] := rfl
  simp [rustLines, h1, h2]

theorem rustLines_crlf (cs : List Char) :
    rustLines ('\r' :: '\n' :: cs) = [] :: rustLines cs := by
  have h1 : splitInclusiveNl ('\r' :: '\n' :: cs)
      = ['\r', '\n'] :: splitInclusiveNl cs := by
    simp [splitInclusiveNl]
  have h2 : stripLineEnd ['\r', '\n'] = [] := rfl
  simp [rustLines, h1, h2]

theorem rustLines_singleton (c : Char) (hc : ¬ c = '\n') :
    rustLines [c] = [[c]] := by
  have h1 : splitInclusiveNl [c] = [[c]] := by simp [splitInclusiveNl, hc]
  have h2 : stripLineEnd [c] = [c] := by simp [stripLineEnd, hc]
  simp [rustLines, h1, h2]

theorem rustLines_cons {c : Char} {cs l : List Char} {ls : List (List Char)}
    (hc : ¬ c = '\n') (hcr : ¬(c = '\r' ∧ cs.head? = some '\n'))
    (h : rustLines cs = l :: ls) :
    rustLines (c :: cs) = (c :: l) :: ls := by
  have hcs : cs ≠ [] := by rintro rfl; simp [rustLines, splitInclusiveNl] at h
  obtain ⟨p, ps, hsp⟩ : ∃ p ps, splitInclusiveNl cs = p :: ps := by
    cases hx : splitInclusiveNl cs with
    | nil => exact absurd hx (splitInclusiveNl_ne_nil hcs)
    | cons p ps => exact ⟨p, ps, rfl⟩
  have hp : p ≠ [] := splitInclusiveNl_pieces_ne_nil cs p (by rw [hsp]; simp)
  have hstrip : stripLineEnd p = l ∧ ps.map stripLineEnd = ls := by
    rw [rustLines, hsp] at h
    simpa using h
  have hsp2 : splitInclusiveNl (c :: cs) = (c :: p) :: ps := by
    simp [splitInclusiveNl, hc, hsp]
  have hne : ¬(c = '\r' ∧ p = ['\n']) := by
    rintro ⟨rfl, rfl⟩
    exact hcr ⟨rfl, by rw [splitInclusiveNl_first_head hsp]; rfl⟩
  rw [rustLines, hsp2, List.map_cons, stripLineEnd_cons c p hp hne,
    hstrip.1, hstrip.2]

theorem specAppend_eq_rendered (ind : Nat) :
    ∀ (sol : Bool) (s : List Char), specAppend ind sol s = rendered ind sol s
  | sol, [] => by
    simp [specAppend, rustLines, splitInclusiveNl, renderLinesF, trailingNl,
      rendered]
  | sol, [c] => by
    by_cases hc : c = '\n'
    · subst hc
      simp [specAppend, rustLines, splitInclusiveNl,
        renderLinesF, renderLine, trailingNl, rendered,
        show stripLineEnd ['\n'] = [] from rfl]
    · rw [specAppend, rustLines_singleton c hc]
      simp [renderLinesF, renderLine, trailingNl, rendered, hc]
  | sol, c :: c2 :: cs => by
    by_cases hc : c = '\n'
    · subst hc
      have ih := specAppend_eq_rendered ind true (c2 :: cs)
      rw [specAppend, rustLines_cons_nl]
      cases hL : rustLines (c2 :: cs) with
      | nil => exact absurd hL (rustLines_ne_nil (by simp))
      | cons l ls =>
        rw [specAppend, hL] at ih
        rw [show rendered ind sol ('\n' :: c2 :: cs)
            = '\n' :: rendered ind true (c2 :: cs) from by simp [rendered]]
        rw [← ih]
        simp [renderLinesF, renderLine, trailingNl, List.getLast?_cons_cons]
    · by_cases hcr : c = '\r' ∧ c2 = '\n'
      · obtain ⟨rfl, rfl⟩ := hcr
        cases cs with
        | nil =>
          simp [specAppend, rustLines, splitInclusiveNl,
            renderLinesF, renderLine, trailingNl, rendered,
            show stripLineEnd ['\r', '\n'] = [] from rfl]
        | cons d ds =>
          have ih := specAppend_eq_rendered ind true (d :: ds)
          rw [specAppend, rustLines_crlf]
          cases hL : rustLines (d :: ds) with
          | nil => exact absurd hL (rustLines_ne_nil (by simp))
          | cons l ls =>
            rw [specAppend, hL] at ih
            rw [show rendered ind sol ('\r' :: '\n' :: d :: ds)
                = '\n' :: rendered ind true (d :: ds) from by simp [rendered]]
            rw [← ih]
            simp [renderLinesF, renderLine, trailingNl, List.getLast?_cons_cons]
      · have ih := specAppend_eq_rendered ind false (c2 :: cs)
        cases hL : rustLines (c2 :: cs) with
        | nil => exact absurd hL (rustLines_ne_nil (by simp))
        | cons l ls =>
          have hcr2 : ¬(c = '\r' ∧ (c2 :: cs).head? = some '\n') := by
            simp only [List.head?_cons]
            rintro ⟨rfl, h2⟩
            exact hcr ⟨rfl, by simpa using h2⟩
          rw [specAppend, rustLines_cons hc hcr2 hL]
          rw [specAppend, hL] at ih
          rw [show rendered ind sol (c :: c2 :: cs)
              = (if sol then indentStr ind else []) ++ c :: rendered ind false (c2 :: cs)
              from by simp [rendered, hc, hcr]]
          rw [← ih]
          simp [renderLinesF, renderLine, trailingNl, List.getLast?_cons_cons,
            hc, List.append_assoc]

theorem getLast?_cons_ne_nil {α : Type} (a : α) {l : List α} (h : l ≠ []) :
    (a :: l).getLast? = l.getLast? := by
  cases l with
  | nil => exact absurd rfl h
  | cons b t => simp [List.getLast?_cons_cons]

theorem getLast?_append_right {α : Type} (l1 : List α) {l2 : List α}
    (h : l2 ≠ []) : (l1 ++ l2).getLast? = l2.getLast? := by
  induction l1 with
  | nil => simp
  | cons a t ih =>
    have ht : t ++ l2 ≠ [] := by
      simp only [ne_eq, List.append_eq_nil]
      rintro ⟨-, rfl⟩
      exact h rfl
    rw [List.cons_append, getLast?_cons_ne_nil a ht, ih]

theorem solAfter_cons (sol : Bool) (c : Char) (cs : List Char) :
    solAfter sol (c :: cs) = solAfter (c == '\n') cs := by
  cases cs with
  | nil => simp [solAfter]
  | cons d ds =>
    rw [solAfter, solAfter, getLast?_cons_ne_nil c (by simp)]
    cases hx : (d :: ds).getLast? with
    | none => exact absurd (List.getLast?_eq_none_iff.mp hx) (by simp)
    | some e => rfl

theorem rendered_last (ind : Nat) :
    ∀ (sol : Bool) (s : List Char), s ≠ [] →
      rendered ind sol s ≠ [] ∧
        ((rendered ind sol s).getLast? = some '\n' ↔ s.getLast? = some '\n')
  | _, [], h => absurd rfl h
  | sol, [c], _ => by
    by_cases hc : c = '\n'
    · subst hc; simp [rendered]
    · constructor
      · simp [rendered, hc]
      · rw [show rendered ind sol [c]
            = (if sol then indentStr ind else []) ++ [c] from by simp [rendered, hc]]
        rw [List.getLast?_concat]
        simp
  | sol, c :: c2 :: cs, _ => by
    by_cases hc : c = '\n'
    · subst hc
      obtain ⟨h1, h2⟩ := rendered_last ind true (c2 :: cs) (by simp)
      rw [show rendered ind sol ('\n' :: c2 :: cs)
          = '\n' :: rendered ind true (c2 :: cs) from by simp [rendered]]
      refine ⟨by simp, ?_⟩
      rw [getLast?_cons_ne_nil _ h1, getLast?_cons_ne_nil _ (by simp)]
      exact h2
    · by_cases hcr : c = '\r' ∧ c2 = '\n'
      · obtain ⟨rfl, rfl⟩ := hcr
        cases cs with
        | nil => simp [rendered]
        | cons d ds =>
          obtain ⟨h1, h2⟩ := rendered_last ind true (d :: ds) (by simp)
          rw [show rendered ind sol ('\r' :: '\n' :: d :: ds)
              = '\n' :: rendered ind true (d :: ds) from by simp [rendered]]
          refine ⟨by simp, ?_⟩
          rw [getLast?_cons_ne_nil _ h1, getLast?_cons_ne_nil _ (by simp),
            getLast?_cons_ne_nil _ (by simp)]
          exact h2
      · obtain ⟨h1, h2⟩ := rendered_last ind false (c2 :: cs) (by simp)
        rw [show rendered ind sol (c :: c2 :: cs)
            = (if sol then indentStr ind else [])
                ++ c :: rendered ind false (c2 :: cs) from by simp [rendered, hc, hcr]]
        have hcons : c :: rendered ind false (c2 :: cs) ≠ [] := by simp
        refine ⟨by simp, ?_⟩
        rw [getLast?_append_right _ hcons, getLast?_cons_ne_nil _ h1,
          getLast?_cons_ne_nil _ (by simp)]
        exact h2

theorem rendered_append (ind : Nat) :
    ∀ (sol : Bool) (s1 s2 : List Char),
      ¬(s1.getLast? = some '\r' ∧ s2.head? = some '\n') →
      rendered ind sol (s1 ++ s2)
        = rendered ind sol s1 ++ rendered ind (solAfter sol s1) s2
  | sol, [], s2, _ => by simp [rendered, solAfter]
  | sol, [c], s2, h => by
    by_cases hc : c = '\n'
    · subst hc
      have hsa : solAfter sol ['\n'] = true := by simp [solAfter]
      rw [hsa]
      cases s2 with
      | nil => simp [rendered]
      | cons d ds => simp [rendered]
    · have hsa : solAfter sol [c] = false := by simp [solAfter, hc]
      rw [hsa]
      cases s2 with
      | nil => simp [rendered]
      | cons d ds =>
        have hcd : ¬(c = '\r' ∧ d = '\n') := by
          rintro ⟨rfl, rfl⟩
          exact h ⟨by simp, by simp⟩
        rw [show [c] ++ d :: ds = c :: d :: ds from rfl]
        rw [show rendered ind sol (c :: d :: ds)
            = (if sol then indentStr ind else []) ++ c :: rendered ind false (d :: ds)
            from by simp [rendered, hc, hcd]]
        rw [show rendered ind sol [c]
            = (if sol then indentStr ind else []) ++ [c] from by simp [rendered, hc]]
        simp [List.append_assoc]
  | sol, c :: c2 :: cs, s2, h => by
    by_cases hc : c = '\n'
    · subst hc
      rw [getLast?_cons_ne_nil '\n' (by simp)] at h
      have ih := rendered_append ind true (c2 :: cs) s2 h
      have hsa : solAfter sol ('\n' :: c2 :: cs) = solAfter true (c2 :: cs) := by
        rw [solAfter_cons]
        simp
      rw [hsa]
      rw [show ('\n' :: c2 :: cs) ++ s2 = '\n' :: c2 :: (cs ++ s2) from rfl]
      rw [show rendered ind sol ('\n' :: c2 :: (cs ++ s2))
          = '\n' :: rendered ind true (c2 :: (cs ++ s2)) from by simp [rendered]]
      rw [show rendered ind sol ('\n' :: c2 :: cs)
          = '\n' :: rendered ind true (c2 :: cs) from by simp [rendered]]
      simp only [List.cons_append] at ih
      rw [ih]
      simp
    · by_cases hcr : c = '\r' ∧ c2 = '\n'
      · obtain ⟨rfl, rfl⟩ := hcr
        cases cs with
        | nil =>
          have hsa : solAfter sol ['\r', '\n'] = true := by
            simp [solAfter, List.getLast?_cons_cons]
          rw [hsa]
          rw [show (['\r', '\n'] : List Char) ++ s2 = '\r' :: '\n' :: s2 from rfl]
          rw [show rendered ind sol ('\r' :: '\n' :: s2)
              = '\n' :: rendered ind true s2 from by simp [rendered]]
          rw [show rendered ind sol ['\r', '\n'] = ['\n'] from by simp [rendered]]
          simp
        | cons e es =>
          rw [getLast?_cons_ne_nil '\r' (by simp),
            getLast?_cons_ne_nil '\n' (by simp)] at h
          have ih := rendered_append ind true (e :: es) s2 h
          have hsa : solAfter sol ('\r' :: '\n' :: e :: es)
              = solAfter true (e :: es) := by
            rw [solAfter_cons, solAfter_cons]
            simp
          rw [hsa]
          rw [show ('\r' :: '\n' :: e :: es) ++ s2
              = '\r' :: '\n' :: (e :: es ++ s2) from rfl]
          rw [show rendered ind sol ('\r' :: '\n' :: (e :: es ++ s2))
              = '\n' :: rendered ind true (e :: es ++ s2) from by simp [rendered]]
          rw [show rendered ind sol ('\r' :: '\n' :: e :: es)
              = '\n' :: rendered ind true (e :: es) from by simp [rendered]]
          simp only [List.cons_append] at ih ⊢
          rw [ih]
      · rw [getLast?_cons_ne_nil c (by simp)] at h
        have ih := rendered_append ind false (c2 :: cs) s2 h
        have hb : (c == '\n') = false := by simp [hc]
        have hsa : solAfter sol (c :: c2 :: cs) = solAfter false (c2 :: cs) := by
          rw [solAfter_cons, hb]
        rw [hsa]
        rw [show (c :: c2 :: cs) ++ s2 = c :: c2 :: (cs ++ s2) from rfl]
        rw [show rendered ind sol (c :: c2 :: (cs ++ s2))
            = (if sol then indentStr ind else [])
                ++ c :: rendered ind false (c2 :: (cs ++ s2))
            from by simp [rendered, hc, hcr]]
        rw [show rendered ind sol (c :: c2 :: cs)
            = (if sol then indentStr ind else [])
                ++ c :: rendered ind false (c2 :: cs)
            from by simp [rendered, hc, hcr]]
        simp only [List.cons_append] at ih
        rw [ih]
        simp [List.append_assoc]

theorem rendered_no_nl_false (ind : Nat) :
    ∀ (s : List Char), '\n' ∉ s → rendered ind false s = s
  | [], _ => rfl
  | [c], h => by
    have hc : ¬ c = '\n' := fun hx => h (by simp [hx])
    simp [rendered, hc]
  | c :: c2 :: cs, h => by
    have hc : ¬ c = '\n' := fun hx => h (by simp [hx])
    have hc2 : ¬ c2 = '\n' := fun hx => h (by simp [hx])
    have hcr : ¬(c = '\r' ∧ c2 = '\n') := fun hx => hc2 hx.2
    have h' : '\n' ∉ c2 :: cs := fun hx => h (List.mem_cons_of_mem _ hx)
    simp [rendered, hc, hcr, rendered_no_nl_false ind (c2 :: cs) h']

theorem rendered_no_nl_true (ind : Nat) (s : List Char) (h : '\n' ∉ s)
    (hne : s ≠ []) : rendered ind true s = indentStr ind ++ s := by
  cases s with
  | nil => exact absurd rfl hne
  | cons c cs =>
    have hc : ¬ c = '\n' := fun hx => h (by simp [hx])
    cases cs with
    | nil => simp [rendered, hc]
    | cons c2 cs2 =>
      have hc2 : ¬ c2 = '\n' := fun hx => h (by simp [hx])
      have hcr : ¬(c = '\r' ∧ c2 = '\n') := fun hx => hc2 hx.2
      have h' : '\n' ∉ c2 :: cs2 := fun hx => h (List.mem_cons_of_mem _ hx)
      simp [rendered, hc, hcr, rendered_no_nl_false ind (c2 :: cs2) h']

theorem write_str_rendered (fm : Formatter) (s : List Char) :
    write_str fm s
      = ({ fm with dst := fm.dst ++ rendered fm.spaces (is_start_of_line fm) s },
          FmtResult.ok) := by
  rw [write_str_eq_spec, specAppend_eq_rendered]

theorem is_start_of_line_append (fm : Formatter) {r : List Char} (hr : r ≠ []) :
    is_start_of_line { fm with dst := fm.dst ++ r } = (r.getLast? == some '\n') := by
  have h1 : (fm.dst ++ r).isEmpty = false := by
    cases hx : fm.dst ++ r with
    | nil => exact absurd (List.append_eq_nil.mp hx).2 hr
    | cons a t => rfl
  rw [is_start_of_line]
  show ((fm.dst ++ r).isEmpty || ((fm.dst ++ r).getLast? == some '\n')) = _
  rw [h1, getLast?_append_right fm.dst hr, Bool.false_or]

theorem sol_write_str (fm : Formatter) (s : List Char) :
    is_start_of_line (write_str fm s).1 = solAfter (is_start_of_line fm) s := by
  rw [write_str_rendered]
  by_cases hs : s = []
  · subst hs
    simp [rendered, solAfter]
  · obtain ⟨hne, hlast⟩ := rendered_last fm.spaces (is_start_of_line fm) s hs
    rw [show (({ fm with dst := fm.dst ++ rendered fm.spaces (is_start_of_line fm) s },
        FmtResult.ok) : Formatter × FmtResult).1
        = { fm with dst := fm.dst ++ rendered fm.spaces (is_start_of_line fm) s }
        from rfl]
    rw [is_start_of_line_append fm hne]
    cases hx : s.getLast? with
    | none => exact absurd (List.getLast?_eq_none_iff.mp hx) hs
    | some c =>
      rw [solAfter, hx]
      by_cases hcn : c = '\n'
      · subst hcn
        rw [hlast.mpr hx]
        simp
      · have h2 : (rendered fm.spaces (is_start_of_line fm) s).getLast? ≠ some '\n' := by
          intro hx2
          have h3 := hlast.mp hx2
          rw [hx] at h3
          exact hcn (Option.some.inj h3)
        simp [h2, hcn]

theorem write_str_append (fm : Formatter) (s1 s2 : List Char)
    (h : ¬(s1.getLast? = some '\r' ∧ s2.head? = some '\n')) :
    write_str (write_str fm s1).1 s2 = write_str fm (s1 ++ s2) := by
  have L : write_str (write_str fm s1).1 s2
      = ({ fm with dst := fm.dst ++ (rendered fm.spaces (is_start_of_line fm) s1
            ++ rendered fm.spaces (solAfter (is_start_of_line fm) s1) s2) },
          FmtResult.ok) := by
    rw [write_str_rendered ((write_str fm s1).1) s2, sol_write_str]
    rw [write_str_rendered fm s1]
    simp [List.append_assoc]
  have R : write_str fm (s1 ++ s2)
      = ({ fm with dst := fm.dst ++ (rendered fm.spaces (is_start_of_line fm) s1
            ++ rendered fm.spaces (solAfter (is_start_of_line fm) s1) s2) },
          FmtResult.ok) := by
    rw [write_str_rendered, rendered_append fm.spaces (is_start_of_line fm) s1 s2 h]
  rw [L, R]

theorem splitInclusiveNl_shape :
    ∀ (cs : List Char) (p : List Char), p ∈ splitInclusiveNl cs →
      (∃ q, p = q ++ ['\n'] ∧ '\n' ∉ q) ∨ '\n' ∉ p := by
  intro cs
  induction cs with
  | nil => intro p hp; simp [splitInclusiveNl] at hp
  | cons c r ih =>
    intro p hp
    by_cases hc : c = '\n'
    · subst hc
      rw [show splitInclusiveNl ('\n' :: r) = ['\n'] :: splitInclusiveNl r
          from by simp [splitInclusiveNl]] at hp
      rcases List.mem_cons.mp hp with rfl | hp
      · exact Or.inl ⟨[], rfl, by simp⟩
      · exact ih p hp
    · cases h2 : splitInclusiveNl r with
      | nil =>
        rw [show splitInclusiveNl (c :: r) = [[c]]
            from by simp [splitInclusiveNl, hc, h2]] at hp
        rw [List.mem_singleton.mp hp]
        refine Or.inr ?_
        simp only [List.mem_singleton]
        exact fun hx => hc hx.symm
      | cons l ls =>
        rw [show splitInclusiveNl (c :: r) = (c :: l) :: ls
            from by simp [splitInclusiveNl, hc, h2]] at hp
        rcases List.mem_cons.mp hp with rfl | hp
        · rcases ih l (by rw [h2]; simp) with ⟨q, rfl, hq⟩ | hnl
          · refine Or.inl ⟨c :: q, by simp, ?_⟩
            simp only [List.mem_cons, not_or]
            exact ⟨fun hx => hc hx.symm, hq⟩
          · refine Or.inr ?_
            simp only [List.mem_cons, not_or]
            exact ⟨fun hx => hc hx.symm, hnl⟩
        · exact ih p (by rw [h2]; exact List.mem_cons_of_mem _ hp)

theorem stripLineEnd_no_nl {p : List Char}
    (h : (∃ q, p = q ++ ['\n'] ∧ '\n' ∉ q) ∨ '\n' ∉ p) :
    '\n' ∉ stripLineEnd p := by
  rcases h with ⟨q, rfl, hq⟩ | h
  · cases hq' : q.reverse with
    | nil =>
      have hq0 : q = [] := by simpa using congrArg List.reverse hq'
      subst hq0
      simp [stripLineEnd]
    | cons e t =>
      by_cases he : e = '\r'
      · subst he
        have hs : stripLineEnd (q ++ ['\n']) = t.reverse := by
          simp [stripLineEnd, List.reverse_append, hq']
        rw [hs]
        intro hx
        have h1 : '\n' ∈ t := List.mem_reverse.mp hx
        have h2 : '\n' ∈ q.reverse := by rw [hq']; exact List.mem_cons_of_mem _ h1
        exact hq (List.mem_reverse.mp h2)
      · have hs : stripLineEnd (q ++ ['\n']) = q := by
          simp [stripLineEnd, List.reverse_append, hq', he]
          simpa using (congrArg List.reverse hq').symm
        rw [hs]
        exact hq
  · cases hp' : p.reverse with
    | nil =>
      have hp0 : p = [] := by simpa using congrArg List.reverse hp'
      subst hp0
      simp [stripLineEnd]
    | cons e t =>
      by_cases he : e = '\n'
      · subst he
        have : '\n' ∈ p := by
          rw [← List.mem_reverse, hp']
          simp
        exact absurd this h
      · have hs : stripLineEnd p = p := by simp [stripLineEnd, hp', he]
        rw [hs]
        exact h

theorem rustLines_no_nl (s : List Char) : ∀ l ∈ rustLines s, '\n' ∉ l := by
  intro l hl
  rw [rustLines] at hl
  rcases List.mem_map.mp hl with ⟨p, hp, rfl⟩
  exact stripLineEnd_no_nl (splitInclusiveNl_shape s p hp)

theorem writeLines_noguard_eq :
    ∀ (ls : List (List Char)), (∀ l ∈ ls, '\n' ∉ l) →
      ∀ (fm : Formatter) (first si : Bool),
        writeLines fm first si ls = writeLinesNoGuard fm first si ls := by
  intro ls
  induction ls with
  | nil => intro _ fm first si; rfl
  | cons l rest ih =>
    intro h fm first si
    have hl : '\n' ∉ l := h l (by simp)
    have hcond : (si && !l.isEmpty && !(l.head? == some '\n'))
        = (si && !l.isEmpty) := by
      cases l with
      | nil => simp
      | cons a t =>
        have ha : ¬ a = '\n' := fun hx => hl (by simp [hx])
        simp [ha]
    simp only [writeLines, writeLinesNoGuard]
    rw [hcond]
    exact ih (fun x hx => h x (List.mem_cons_of_mem _ hx)) _ false true

theorem rendered_single (ind : Nat) (sol : Bool) {c : Char} (hc : ¬ c = '\n') :
    rendered ind sol [c] = (if sol then indentStr ind else []) ++ [c] := by
  simp [rendered, hc]

theorem rendered_brace (ind : Nat) (sol : Bool) :
    rendered ind sol ['\x7b', '\n']
      = (if sol then indentStr ind else []) ++ ['\x7b', '\n'] := by
  cases sol <;> rfl

theorem scopeSep_last {ss : List (List Char)} (h : ss ≠ []) :
    (ss.map (fun s => s ++ [':', ':'])).flatten ≠ [] ∧
      ((ss.map (fun s => s ++ [':', ':'])).flatten).getLast? = some ':' := by
  induction ss with
  | nil => exact absurd rfl h
  | cons a rest ih =>
    cases rest with
    | nil =>
      refine ⟨by simp, ?_⟩
      rw [show (([a].map (fun s => s ++ [':', ':'])).flatten) = a ++ [':', ':']
          from by simp]
      rw [getLast?_append_right a (by simp)]
      rfl
    | cons b rest2 =>
      obtain ⟨h1, h2⟩ := ih (by simp)
      refine ⟨by simp, ?_⟩
      rw [show (((a :: b :: rest2).map (fun s => s ++ [':', ':'])).flatten)
          = (a ++ [':', ':']) ++ ((b :: rest2).map (fun s => s ++ [':', ':'])).flatten
          from by simp]
      rw [getLast?_append_right _ h1]
      exact h2

theorem wsn_core (fm : Formatter) (name : List Char) (hnl : '\n' ∉ name) :
    write_scoped_name fm name
      = ({ fm with dst := fm.dst
            ++ (rendered fm.spaces (is_start_of_line fm) [' ']
              ++ (fm.scope.map (fun s => s ++ [':', ':'])).flatten ++ name) },
          FmtResult.ok) := by
  have hR : rendered fm.spaces (is_start_of_line fm) [' ']
      = (if is_start_of_line fm then indentStr fm.spaces else []) ++ [' '] :=
    rendered_single fm.spaces (is_start_of_line fm) (by decide)
  have hRne : rendered fm.spaces (is_start_of_line fm) [' '] ≠ [] := by
    rw [hR]; simp
  have hRlast : (rendered fm.spaces (is_start_of_line fm) [' ']).getLast?
      = some ' ' := by
    rw [hR]; exact List.getLast?_concat _
  have hRJne : rendered fm.spaces (is_start_of_line fm) [' ']
      ++ (fm.scope.map (fun s => s ++ [':', ':'])).flatten ≠ [] := by
    simp only [ne_eq, List.append_eq_nil]
    rintro ⟨hx, -⟩
    exact hRne hx
  have hlastRJ : (rendered fm.spaces (is_start_of_line fm) [' ']
      ++ (fm.scope.map (fun s => s ++ [':', ':'])).flatten).getLast?
      ≠ some '\n' := by
    by_cases hJ : (fm.scope.map (fun s => s ++ [':', ':'])).flatten = []
    · rw [hJ, List.append_nil, hRlast]
      simp
    · rw [getLast?_append_right _ hJ]
      have hsc : fm.scope ≠ [] := by
        rintro h0
        exact hJ (by simp [h0])
      rw [(scopeSep_last hsc).2]
      simp
  have hbeq : ((rendered fm.spaces (is_start_of_line fm) [' ']
      ++ (fm.scope.map (fun s => s ++ [':', ':'])).flatten).getLast?
      == some '\n') = false := by
    simp only [beq_eq_false_iff_ne, ne_eq]
    exact hlastRJ
  simp only [write_scoped_name]
  rw [write_str_rendered fm [' ']]
  dsimp only
  rw [write_str_rendered]
  dsimp only
  rw [List.append_assoc fm.dst]
  rw [is_start_of_line_append fm hRJne, hbeq]
  rw [rendered_no_nl_false fm.spaces name hnl]
  simp [List.append_assoc]

/-- C1 (as stated, counterexample): writing the string a, CR, LF, b onto a
buffer holding x appends a, LF, b (the code's line splitting drops the CR of
a CR-LF pair), not the a, CR, LF, b that splitting purely on the newline
character predicts. -/
theorem c1_crlf_counterexample :
    (write_str ⟨['x'], 0, []⟩ ['a', '\r', '\n', 'b']).1.dst
      = ['x', 'a', '\n', 'b']
    ∧ (write_str ⟨['x'], 0, []⟩ ['a', '\r', '\n', 'b']).1.dst
      ≠ ['x'] ++ naiveAppend 0 (is_start_of_line ⟨['x'], 0, []⟩)
          ['a', '\r', '\n', 'b'] := by
  decide

/-- C1 (amended): write_str appends exactly the rendering of the Rust lines
of s (split at newlines, a carriage return immediately preceding a newline
separator also removed), each line prefixed by exactly depth spaces when the
should-indent flag holds (start-of-line of the buffer for the first line,
true for all later lines) and the line is nonempty with first character not a
newline, the lines re-separated by newlines, plus one trailing newline
exactly when the last character of s is a newline; depth and scope stack are
untouched and the result is Ok. -/
theorem c1_write_str_line_spec (fm : Formatter) (s : List Char) :
    write_str fm s
      = ({ fm with dst := fm.dst
            ++ (renderLinesF fm.spaces true (is_start_of_line fm) (rustLines s)
              ++ trailingNl s) }, FmtResult.ok) :=
  write_str_eq_spec fm s

/-- C2 (as stated, counterexample): writing a, CR and then LF, b differs from
writing a, CR, LF, b in one call — the single call normalizes the CR-LF pair
while the split calls keep the CR. -/
theorem c2_split_crlf_counterexample :
    write_str (write_str ⟨[], 0, []⟩ ['a', '\r']).1 ['\n', 'b']
      ≠ write_str ⟨[], 0, []⟩ (['a', '\r'] ++ ['\n', 'b']) := by
  decide

/-- C2 (amended): writing s1 and then s2 leaves the destination buffer,
indentation depth and scope stack exactly as one call on the concatenation
s1 ++ s2, provided the fragment boundary does not split a CR-LF pair (s1
ending in a carriage return while s2 begins with a newline). -/
theorem c2_write_str_append (fm : Formatter) (s1 s2 : List Char)
    (h : ¬(s1.getLast? = some '\r' ∧ s2.head? = some '\n')) :
    write_str (write_str fm s1).1 s2 = write_str fm (s1 ++ s2) :=
  write_str_append fm s1 s2 h

/-- C2 witness: the concatenation law at depth 2 for the fragments a-newline
and b. -/
theorem c2_write_str_append_witness :
    write_str (write_str ⟨[], 2, []⟩ ['a', '\n']).1 ['b']
      = write_str ⟨[], 2, []⟩ (['a', '\n'] ++ ['b']) :=
  c2_write_str_append ⟨[], 2, []⟩ ['a', '\n'] ['b'] (by decide)

/-- C3 (as stated, counterexample): block at depth 0 with an inner write of
x-semicolon produces open brace, newline, four spaces, x-semicolon, close
brace — with no newline before the closing brace, so not the claimed string
that has one. -/
theorem c3_block_counterexample :
    (block ⟨[], 0, []⟩ (fun x => write_str x ['x', ';'])).1.dst
      = ['\x7b', '\n', ' ', ' ', ' ', ' ', 'x', ';', '\x7d']
    ∧ ['\x7b', '\n', ' ', ' ', ' ', ' ', 'x', ';', '\x7d']
      ≠ ['\x7b', '\n', ' ', ' ', ' ', ' ', 'x', ';', '\n', '\x7d'] := by
  decide

/-- C3 (amended): for a depth-0 writer at start of line, block with an inner
callable writing exactly x-semicolon appends exactly open brace, newline,
four spaces, x-semicolon, close brace (4-space unit, no newline before the
closing brace), leaving depth 0 and returning Ok. -/
theorem c3_block_scenario :
    block ⟨[], 0, []⟩ (fun x => write_str x ['x', ';'])
      = (⟨['\x7b', '\n', ' ', ' ', ' ', ' ', 'x', ';', '\x7d'], 0, []⟩,
          FmtResult.ok) := by
  decide

/-- C4: indent runs the inner callable at depth increased by exactly
DEFAULT_INDENT = 4 and, for every inner callable that leaves the depth it was
handed unchanged (as every public formatter operation does), restores the
depth to its value before the call and passes the inner result through
unchanged — including when the inner callable reports failure; quantifying
over the state makes the restoration law close under nesting. -/
theorem c4_indent_restores_depth {R : Type} (fm : Formatter)
    (g : Formatter → Formatter × R)
    (h : ∀ x, ((g x).1).spaces = x.spaces) :
    DEFAULT_INDENT = 4
    ∧ (indent fm g).2 = (g { fm with spaces := fm.spaces + DEFAULT_INDENT }).2
    ∧ (indent fm g).1
        = { (g { fm with spaces := fm.spaces + DEFAULT_INDENT }).1
            with spaces := fm.spaces } := by
  refine ⟨rfl, rfl, ?_⟩
  have h4 : ((g { fm with spaces := fm.spaces + DEFAULT_INDENT }).1).spaces
      = fm.spaces + DEFAULT_INDENT := h _
  simp only [indent]
  rw [h4, Nat.add_sub_cancel]

/-- C4 witness: at depth 7 with an inner callable that fails, the depth is
restored to 7 and the failure is passed through. -/
theorem c4_indent_restores_depth_witness :
    (indent ⟨[], 7, []⟩ (fun x => (x, FmtResult.err))).1.spaces = 7
    ∧ (indent ⟨[], 7, []⟩ (fun x => (x, FmtResult.err))).2 = FmtResult.err := by
  have h := @c4_indent_restores_depth FmtResult ⟨[], 7, []⟩
    (fun x => (x, FmtResult.err)) (fun _ => rfl)
  exact ⟨by rw [h.2.2], by rw [h.2.1]⟩

/-- C5: scope pushes exactly the given segment onto the end of the scope
stack, runs the inner callable there, and — for every inner callable that
leaves the stack it was handed unchanged (as every public formatter
operation does) — removes exactly that last element, restoring the stack's
length and contents and passing the inner result through unchanged,
including on failure. -/
theorem c5_scope_restores_stack {R : Type} (fm : Formatter) (name : List Char)
    (g : Formatter → Formatter × R)
    (h : ∀ x, ((g x).1).scope = x.scope) :
    (scope fm name g).2 = (g { fm with scope := fm.scope ++ [name] }).2
    ∧ (scope fm name g).1
        = { (g { fm with scope := fm.scope ++ [name] }).1
            with scope := fm.scope } := by
  refine ⟨rfl, ?_⟩
  have h4 : ((g { fm with scope := fm.scope ++ [name] }).1).scope
      = fm.scope ++ [name] := h _
  simp only [scope]
  rw [h4]
  simp

/-- C5 witness: pushing B over stack A with a failing inner callable restores
the stack to A and passes the failure through. -/
theorem c5_scope_restores_stack_witness :
    (scope ⟨[], 0, [['A']]⟩ ['B'] (fun x => (x, FmtResult.err))).1.scope = [['A']]
    ∧ (scope ⟨[], 0, [['A']]⟩ ['B'] (fun x => (x, FmtResult.err))).2
      = FmtResult.err := by
  have h := @c5_scope_restores_stack FmtResult ⟨[], 0, [['A']]⟩ ['B']
    (fun x => (x, FmtResult.err)) (fun _ => rfl)
  exact ⟨by rw [h.2], by rw [h.1]⟩

/-- C7: for a writer not requiring indentation (not at start of line, or at
depth 0) and a newline-free identifier, write_scoped_name appends exactly one
leading space, then every scope segment in stack order each followed by a
double colon, then the identifier, returning Ok and leaving depth and stack
unchanged. -/
theorem c7_write_scoped_name_spec (fm : Formatter) (name : List Char)
    (h1 : is_start_of_line fm = false ∨ fm.spaces = 0) (h2 : '\n' ∉ name) :
    write_scoped_name fm name
      = ({ fm with dst := fm.dst
            ++ ([' '] ++ (fm.scope.map (fun s => s ++ [':', ':'])).flatten
              ++ name) }, FmtResult.ok) := by
  rw [wsn_core fm name h2,
    rendered_single fm.spaces (is_start_of_line fm) (show ¬ ' ' = '\n' by decide)]
  rcases h1 with h1 | h1
  · rw [h1]
    simp
  · rw [h1]
    cases hx : is_start_of_line fm <;> simp [indentStr]

/-- C7 witness: with scope segments Foo then Bar at depth 0 on an empty
buffer, emitting baz appends exactly space Foo colon colon Bar colon colon
baz. -/
theorem c7_write_scoped_name_spec_witness :
    write_scoped_name ⟨[], 0, [['F', 'o', 'o'], ['B', 'a', 'r']]⟩ ['b', 'a', 'z']
      = (⟨[' ', 'F', 'o', 'o', ':', ':', 'B', 'a', 'r', ':', ':', 'b', 'a', 'z'],
          0, [['F', 'o', 'o'], ['B', 'a', 'r']]⟩, FmtResult.ok) := by
  have h := c7_write_scoped_name_spec ⟨[], 0, [['F', 'o', 'o'], ['B', 'a', 'r']]⟩
    ['b', 'a', 'z'] (Or.inr rfl) (by decide)
  rw [h]
  rfl

/-- C8: the first-character-newline conjunct of the indent guard is dead
code: for every formatter state and every input string, write_str produces
exactly the same state and result as the variant whose indent condition is
only should-indent and line-nonempty, because line splitting never yields a
line containing a newline. -/
theorem c8_write_str_guard_dead (fm : Formatter) (s : List Char) :
    write_str fm s = write_str_noguard fm s := by
  simp only [write_str, write_str_noguard]
  rw [writeLines_noguard_eq (rustLines s) (rustLines_no_nl s) fm true
    (is_start_of_line fm)]

/-- C9 (as stated, counterexample): at depth 4 and start of line, writing the
empty string appends nothing, not the four indentation spaces the claim's
"including the empty string" requires. -/
theorem c9_empty_write_counterexample :
    (write_str ⟨[], 4, []⟩ []).1.dst = []
    ∧ ([] : List Char) ≠ indentStr 4 ++ [] := by
  decide

/-- C9 (amended): for every nonempty newline-free s and every writer at start
of line, write_str appends exactly depth spaces followed by s with no
trailing newline added; writing the empty string appends nothing. -/
theorem c9_single_line_write (fm : Formatter) (s : List Char)
    (h1 : is_start_of_line fm = true) (h2 : s ≠ []) (h3 : '\n' ∉ s) :
    write_str fm s
      = ({ fm with dst := fm.dst ++ (indentStr fm.spaces ++ s) },
          FmtResult.ok) := by
  rw [write_str_rendered, h1, rendered_no_nl_true fm.spaces s h3 h2]

/-- C9 witness: writing ab at depth 3 on an empty buffer yields three spaces
then ab. -/
theorem c9_single_line_write_witness :
    write_str ⟨[], 3, []⟩ ['a', 'b']
      = (⟨[' ', ' ', ' ', 'a', 'b'], 3, []⟩, FmtResult.ok) := by
  have h := c9_single_line_write ⟨[], 3, []⟩ ['a', 'b'] rfl (by decide) (by decide)
  rw [h]
  rfl

/-- C10: at start of line, write_scoped_name emits the indentation prefix
(depth spaces) before the leading space, because only that space and the
final identifier go through the indenting write path; every scope segment
and its separator are appended verbatim with no indentation or newline
processing, even segments containing newlines. -/
theorem c10_write_scoped_name_raw_segments (fm : Formatter) (name : List Char)
    (h1 : is_start_of_line fm = true) (h2 : '\n' ∉ name) :
    write_scoped_name fm name
      = ({ fm with dst := fm.dst
            ++ (indentStr fm.spaces ++ [' ']
              ++ (fm.scope.map (fun s => s ++ [':', ':'])).flatten ++ name) },
          FmtResult.ok) := by
  rw [wsn_core fm name h2,
    rendered_single fm.spaces (is_start_of_line fm) (show ¬ ' ' = '\n' by decide),
    h1]
  simp [List.append_assoc]

/-- C10 witness: depth 4, start of line, one scope segment containing a raw
newline: four indent spaces, the leading space, the segment verbatim with its
newline, the separator, then the identifier. -/
theorem c10_write_scoped_name_raw_segments_witness :
    write_scoped_name ⟨[], 4, [['A', '\n', 'B']]⟩ ['c']
      = (⟨[' ', ' ', ' ', ' ', ' ', 'A', '\n', 'B', ':', ':', 'c'], 4,
          [['A', '\n', 'B']]⟩, FmtResult.ok) := by
  have h := c10_write_scoped_name_raw_segments ⟨[], 4, [['A', '\n', 'B']]⟩ ['c']
    rfl (by decide)
  rw [h]
  rfl

/-- C6: block writes a single separating space exactly when the buffer is not
at start of line, then the opening brace and a newline through the indenting
writer, runs the inner callable at depth exactly one DEFAULT_INDENT deeper,
and on success writes the closing brace with no trailing newline (indented
only if the inner callable left the buffer at start of line); afterwards the
depth equals its value before the call, for every inner callable that
preserves the depth it was handed, and an inner failure is passed through. -/
theorem c6_block_steps (fm : Formatter) (g : Formatter → Formatter × FmtResult)
    (h : ∀ x, ((g x).1).spaces = x.spaces) :
    block fm g
      = (match g { fm with
            dst := fm.dst
              ++ ((if is_start_of_line fm then indentStr fm.spaces else [' '])
                ++ ['\x7b', '\n']),
            spaces := fm.spaces + DEFAULT_INDENT } with
          | (y, FmtResult.ok) =>
            ({ y with
                spaces := fm.spaces,
                dst := y.dst
                  ++ ((if is_start_of_line y then indentStr fm.spaces else [])
                    ++ ['\x7d']) }, FmtResult.ok)
          | (y, FmtResult.err) =>
            ({ y with spaces := fm.spaces }, FmtResult.err)) := by
  cases hsol : is_start_of_line fm with
  | true =>
    have e2 : write_str fm ['\x7b', '\n']
        = ({ fm with dst := fm.dst ++ (indentStr fm.spaces ++ ['\x7b', '\n']) },
            FmtResult.ok) := by
      rw [write_str_rendered, rendered_brace, hsol]
      simp
    simp only [block, hsol, reduceIte]
    rw [e2]
    dsimp only
    simp only [indent]
    rcases hg : g { fm with
        dst := fm.dst ++ (indentStr fm.spaces ++ ['\x7b', '\n']),
        spaces := fm.spaces + DEFAULT_INDENT } with ⟨y, r⟩
    have hy : y.spaces = fm.spaces + DEFAULT_INDENT := by
      have hx := h { fm with
        dst := fm.dst ++ (indentStr fm.spaces ++ ['\x7b', '\n']),
        spaces := fm.spaces + DEFAULT_INDENT }
      rw [hg] at hx
      exact hx
    cases r with
    | ok =>
      dsimp only
      rw [hy, Nat.add_sub_cancel]
      rw [write_str_rendered { y with spaces := fm.spaces } ['\x7d']]
      rw [show is_start_of_line { y with spaces := fm.spaces }
          = is_start_of_line y from rfl]
      rw [rendered_single fm.spaces (is_start_of_line y) (show ¬ '\x7d' = '\n' by decide)]
    | err =>
      dsimp only
      rw [hy, Nat.add_sub_cancel]
  | false =>
    have e1 : write_str fm [' ']
        = ({ fm with dst := fm.dst ++ [' '] }, FmtResult.ok) := by
      rw [write_str_rendered,
        rendered_single fm.spaces (is_start_of_line fm) (show ¬ ' ' = '\n' by decide),
        hsol]
      simp
    have e2 : write_str { fm with dst := fm.dst ++ [' '] } ['\x7b', '\n']
        = ({ fm with dst := fm.dst ++ ([' '] ++ ['\x7b', '\n']) },
            FmtResult.ok) := by
      rw [write_str_rendered,
        is_start_of_line_append fm (show ([' '] : List Char) ≠ [] by decide),
        rendered_brace]
      simp [List.append_assoc]
    simp only [block, hsol, Bool.false_eq_true, if_false]
    rw [e1]
    dsimp only
    rw [e2]
    dsimp only
    simp only [indent]
    rcases hg : g { fm with
        dst := fm.dst ++ ([' '] ++ ['\x7b', '\n']),
        spaces := fm.spaces + DEFAULT_INDENT } with ⟨y, r⟩
    have hy : y.spaces = fm.spaces + DEFAULT_INDENT := by
      have hx := h { fm with
        dst := fm.dst ++ ([' '] ++ ['\x7b', '\n']),
        spaces := fm.spaces + DEFAULT_INDENT }
      rw [hg] at hx
      exact hx
    cases r with
    | ok =>
      dsimp only
      rw [hy, Nat.add_sub_cancel]
      rw [write_str_rendered { y with spaces := fm.spaces } ['\x7d']]
      rw [show is_start_of_line { y with spaces := fm.spaces }
          = is_start_of_line y from rfl]
      rw [rendered_single fm.spaces (is_start_of_line y) (show ¬ '\x7d' = '\n' by decide)]
    | err =>
      dsimp only
      rw [hy, Nat.add_sub_cancel]

/-- C6 witness: on an empty buffer at depth 0 with a failing inner callable,
block writes the opening brace and newline, passes the failure through, and
restores depth 0. -/
theorem c6_block_steps_witness :
    block ⟨[], 0, []⟩ (fun x => (x, FmtResult.err))
      = (⟨['\x7b', '\n'], 0, []⟩, FmtResult.err) := by
  have h := c6_block_steps ⟨[], 0, []⟩ (fun x => (x, FmtResult.err))
    (fun _ => rfl)
  rw [h]
  rfl
